import Mathlib

/-!
Verification of the Shellman file-manager core (src/main.py) via a shallow
embedding.  Python strings are modelled as lists of characters (`Str`),
filesystem paths as lists of path components (`FPath`), and the mutable
application state as an explicit record (`St`).  Python `sorted`, being a
stable sort, is modelled by `List.insertionSort` (also stable, hence
extensionally equal on every comparison key).  Fallible library calls are
modelled by `Option` results or by explicit existence checks on the
filesystem map.
-/

namespace Shellman

/-- Python strings, modelled as lists of characters. -/
abbrev Str := List Char

/-- Conversion from a Lean string literal to the `Str` model. -/
def strOf (s : String) : Str := s.data

/-- Python str.lower, modelled as per-character lowering. -/
def lowerS (s : Str) : Str := s.map Char.toLower

/-- Python s.startswith with a one-character argument, used for the hidden-file test. -/
def startsWithDot (s : Str) : Bool :=
  match s with
  | c :: _ => c == '.'
  | [] => false

/-- Python membership test `need in hay` on strings (contiguous subsequence). -/
def containsSeq (hay need : Str) : Bool :=
  match hay with
  | [] => need.isEmpty
  | _ :: rest => need.isPrefixOf hay || containsSeq rest need

/-- Python s.endswith. -/
def endsWithS (s post : Str) : Bool := post.isSuffixOf s

/-- Index of the last dot of a file name, as in the pathlib suffix/stem logic. -/
def lastDotIdx (name : Str) : Option Nat :=
  match name.reverse.findIdx? (· == '.') with
  | none => none
  | some j => some (name.length - 1 - j)

/-- pathlib PurePath.suffix: the final extension including the dot, empty when the
only dot is leading or trailing. -/
def suffixS (name : Str) : Str :=
  match lastDotIdx name with
  | none => []
  | some i => if 0 < i ∧ i < name.length - 1 then name.drop i else []

/-- pathlib PurePath.stem: the file name with the final extension removed. -/
def stemS (name : Str) : Str :=
  match lastDotIdx name with
  | none => name
  | some i => if 0 < i ∧ i < name.length - 1 then name.take i else name

/-- is_archive from main.py: the recognised archive suffixes, checked on the
lower-cased name. -/
def isArchive (name : Str) : Bool :=
  let n := lowerS name
  endsWithS n (strOf ".zip") || endsWithS n (strOf ".tar") ||
  endsWithS n (strOf ".tar.gz") || endsWithS n (strOf ".tgz") ||
  endsWithS n (strOf ".tar.bz2") || endsWithS n (strOf ".tar.xz") ||
  endsWithS n (strOf ".gz") || endsWithS n (strOf ".bz2")

/-- Kind of a directory entry as reported by pathlib is_dir and is_file. -/
inductive EntryKind
  | dir
  | file
  | other
deriving DecidableEq

/-- Result of a successful stat call: byte size and modification time. -/
structure FileStat where
  size : Nat
  mtime : Int
deriving DecidableEq

/-- One child of the current directory, as consumed by the listing pipeline.
The stat field is none when the stat call raises. -/
structure Entry where
  name : Str
  kind : EntryKind
  stat : Option FileStat
deriving DecidableEq

def isDirB (e : Entry) : Bool := e.kind == EntryKind.dir

def isFileB (e : Entry) : Bool := e.kind == EntryKind.file

/-- The size helper of the size sort mode: stat size for files, 0 for anything
else and 0 when stat raises. -/
def sizeKey (e : Entry) : Nat :=
  if isFileB e then
    match e.stat with
    | some st => st.size
    | none => 0
  else 0

/-- The mtime helper of the modified sort mode: stat mtime, 0.0 when stat raises. -/
def mtimeKey (e : Entry) : Int :=
  match e.stat with
  | some st => st.mtime
  | none => 0

/-- Sort key for mode name: (not is_dir, name.lower()). -/
def nameSortKey (e : Entry) : Lex (Bool × Str) :=
  toLex (!(isDirB e), lowerS e.name)

/-- Sort key for mode size: (not is_dir, size with fallback 0). -/
def sizeSortKey (e : Entry) : Lex (Bool × Nat) :=
  toLex (!(isDirB e), sizeKey e)

/-- Sort key for mode modified: (not is_dir, negated mtime), newest first. -/
def mtimeSortKey (e : Entry) : Lex (Bool × Int) :=
  toLex (!(isDirB e), -(mtimeKey e))

/-- Sort key for mode type: (not is_dir, suffix.lower(), name.lower()). -/
def typeSortKey (e : Entry) : Lex (Bool × Lex (Str × Str)) :=
  toLex (!(isDirB e), toLex (lowerS (suffixS e.name), lowerS e.name))

/-- Python sorted with a key function: a stable sort by the key order. -/
def sortByKey {β : Type} [LinearOrder β] (key : Entry → β) (l : List Entry) : List Entry :=
  List.insertionSort (fun a b => key a ≤ key b) l

/-- The method _sort_entries: dispatch on the sort mode, returning the input
unchanged on an unknown mode. -/
def sortEntries (mode : Str) (l : List Entry) : List Entry :=
  if mode = strOf "name" then sortByKey nameSortKey l
  else if mode = strOf "size" then sortByKey sizeSortKey l
  else if mode = strOf "modified" then sortByKey mtimeSortKey l
  else if mode = strOf "type" then sortByKey typeSortKey l
  else l

/-- Hidden-file policy of refresh_table: names starting with a dot are dropped
unless show_hidden is set. -/
def hiddenPass (showHidden : Bool) (l : List Entry) : List Entry :=
  if showHidden then l else l.filter (fun e => !(startsWithDot e.name))

/-- Text filter of refresh_table: case-insensitive substring match, empty
filter matches everything. -/
def filterPass (ftext : Str) (l : List Entry) : List Entry :=
  if ftext = [] then l else l.filter (fun e => containsSeq (lowerS e.name) (lowerS ftext))

/-- The pure listing pipeline of refresh_table: sort, then hidden policy, then
text filter. -/
def refreshListing (mode : Str) (showHidden : Bool) (ftext : Str) (raw : List Entry) :
    List Entry :=
  filterPass ftext (hiddenPass showHidden (sortEntries mode raw))

/-! Lemmas about the listing pipeline. -/

theorem sortByKey_pairwise {β : Type} [LinearOrder β] (key : Entry → β) (l : List Entry) :
    (sortByKey key l).Pairwise (fun a b => key a ≤ key b) := by
  haveI : IsTotal Entry (fun a b => key a ≤ key b) := ⟨fun a b => le_total (key a) (key b)⟩
  haveI : IsTrans Entry (fun a b => key a ≤ key b) := ⟨fun a b c h1 h2 => le_trans h1 h2⟩
  exact List.sorted_insertionSort _ l

theorem sortByKey_perm {β : Type} [LinearOrder β] (key : Entry → β) (l : List Entry) :
    (sortByKey key l).Perm l :=
  List.perm_insertionSort _ l

/-- A lexicographic key whose first component is not is_dir forces directories
to come first. -/
theorem lexKey_dirsFirst {β : Type} [LinearOrder β] (f : Entry → β) (a b : Entry)
    (h : toLex (!(isDirB a), f a) ≤ toLex (!(isDirB b), f b)) :
    isDirB b = true → isDirB a = true := by
  intro hb
  rcases (Prod.Lex.le_iff _ _).mp h with hlt | ⟨heq, _⟩
  · simp only [hb, Bool.not_true] at hlt
    cases ha : isDirB a
    · simp [ha] at hlt
      exact absurd hlt (by decide)
    · rfl
  · cases ha : isDirB a
    · simp [ha, hb] at heq
    · rfl

theorem hiddenPass_sublist (showHidden : Bool) (l : List Entry) :
    (hiddenPass showHidden l).Sublist l := by
  unfold hiddenPass
  split
  · exact List.Sublist.refl l
  · exact List.filter_sublist l

theorem filterPass_sublist (ftext : Str) (l : List Entry) :
    (filterPass ftext l).Sublist l := by
  unfold filterPass
  split
  · exact List.Sublist.refl l
  · exact List.filter_sublist l

theorem sortEntries_name (l : List Entry) :
    sortEntries (strOf "name") l = sortByKey nameSortKey l := by
  unfold sortEntries
  rw [if_pos rfl]

theorem sortEntries_size (l : List Entry) :
    sortEntries (strOf "size") l = sortByKey sizeSortKey l := by
  unfold sortEntries
  rw [if_neg (by decide), if_pos rfl]

theorem sortEntries_mtime (l : List Entry) :
    sortEntries (strOf "modified") l = sortByKey mtimeSortKey l := by
  unfold sortEntries
  rw [if_neg (by decide), if_neg (by decide), if_pos rfl]

theorem sortEntries_type (l : List Entry) :
    sortEntries (strOf "type") l = sortByKey typeSortKey l := by
  unfold sortEntries
  rw [if_neg (by decide), if_neg (by decide), if_neg (by decide), if_pos rfl]

/-- Under each of the four sort modes, the sorted list is pairwise ordered with
directories first. -/
theorem sortEntries_dirsFirst (mode : Str) (l : List Entry)
    (hm : mode = strOf "name" ∨ mode = strOf "size" ∨ mode = strOf "modified" ∨
      mode = strOf "type") :
    (sortEntries mode l).Pairwise (fun a b => isDirB b = true → isDirB a = true) := by
  rcases hm with h | h | h | h <;> subst h
  · rw [sortEntries_name]
    exact (sortByKey_pairwise nameSortKey l).imp
      (fun {a b} h => lexKey_dirsFirst (fun e => lowerS e.name) a b h)
  · rw [sortEntries_size]
    exact (sortByKey_pairwise sizeSortKey l).imp
      (fun {a b} h => lexKey_dirsFirst (fun e => sizeKey e) a b h)
  · rw [sortEntries_mtime]
    exact (sortByKey_pairwise mtimeSortKey l).imp
      (fun {a b} h => lexKey_dirsFirst (fun e => -(mtimeKey e)) a b h)
  · rw [sortEntries_type]
    exact (sortByKey_pairwise typeSortKey l).imp
      (fun {a b} h =>
        lexKey_dirsFirst (fun e => toLex (lowerS (suffixS e.name), lowerS e.name)) a b h)

/-- C2: the listing is computed as sort, then hidden-file exclusion, then
case-insensitive substring filter, and under each of the four sort modes the
result places all directories before all files. -/
theorem spec_c2_listing_pipeline (mode : Str) (showHidden : Bool) (ftext : Str)
    (raw : List Entry)
    (hm : mode = strOf "name" ∨ mode = strOf "size" ∨ mode = strOf "modified" ∨
      mode = strOf "type") :
    refreshListing mode showHidden ftext raw =
      filterPass ftext (hiddenPass showHidden (sortEntries mode raw)) ∧
    (refreshListing mode showHidden ftext raw).Pairwise
      (fun a b => isDirB b = true → isDirB a = true) := by
  refine ⟨rfl, ?_⟩
  have h1 := sortEntries_dirsFirst mode raw hm
  have h2 := h1.sublist (hiddenPass_sublist showHidden (sortEntries mode raw))
  exact h2.sublist (filterPass_sublist ftext _)

/-- Concrete instantiation of the C2 theorem: a directory sorts before a file
under the size mode even though the file name is smaller. -/
theorem spec_c2_listing_pipeline_witness :
    (refreshListing (strOf "size") false []
        [⟨strOf "a.txt", EntryKind.file, some ⟨10, 5⟩⟩,
         ⟨strOf "zdir", EntryKind.dir, some ⟨0, 9⟩⟩]).Pairwise
      (fun a b => isDirB b = true → isDirB a = true) ∧
    refreshListing (strOf "size") false []
        [⟨strOf "a.txt", EntryKind.file, some ⟨10, 5⟩⟩,
         ⟨strOf "zdir", EntryKind.dir, some ⟨0, 9⟩⟩] =
      [⟨strOf "zdir", EntryKind.dir, some ⟨0, 9⟩⟩,
       ⟨strOf "a.txt", EntryKind.file, some ⟨10, 5⟩⟩] :=
  ⟨(spec_c2_listing_pipeline (strOf "size") false [] _ (Or.inr (Or.inl rfl))).2,
   by decide⟩

/-- C10: sorting is total, returns a permutation of its input under every mode,
treats a failed stat as size 0 and mtime 0, and treats every directory as size
0 in the size mode. -/
theorem spec_c10_sort_total (mode : Str) (l : List Entry) :
    (sortEntries mode l).Perm l ∧
    (∀ e : Entry, e.stat = none → sizeKey e = 0 ∧ mtimeKey e = 0) ∧
    (∀ e : Entry, isDirB e = true → sizeKey e = 0) := by
  refine ⟨?_, ?_, ?_⟩
  · unfold sortEntries
    split
    · exact sortByKey_perm _ _
    · split
      · exact sortByKey_perm _ _
      · split
        · exact sortByKey_perm _ _
        · split
          · exact sortByKey_perm _ _
          · exact List.Perm.refl l
  · intro e hs
    constructor
    · unfold sizeKey
      rw [hs]
      split <;> rfl
    · unfold mtimeKey
      rw [hs]
  · intro e hd
    have hk : e.kind = EntryKind.dir := by
      unfold isDirB at hd
      exact beq_iff_eq.mp hd
    have hf : isFileB e = false := by
      unfold isFileB
      rw [hk]
      decide
    unfold sizeKey
    simp [hf]

/-- Concrete instantiation of the C10 theorem: an unknown-mode sort permutes
(indeed fixes) the input, and a stat-less file has key sizes 0. -/
theorem spec_c10_sort_total_witness :
    (sortEntries (strOf "size")
        [⟨strOf "b", EntryKind.file, none⟩, ⟨strOf "a", EntryKind.file, some ⟨3, 1⟩⟩]).Perm
      [⟨strOf "b", EntryKind.file, none⟩, ⟨strOf "a", EntryKind.file, some ⟨3, 1⟩⟩] ∧
    sizeKey ⟨strOf "b", EntryKind.file, none⟩ = 0 ∧
    mtimeKey ⟨strOf "b", EntryKind.file, none⟩ = 0 ∧
    sizeKey ⟨strOf "d", EntryKind.dir, some ⟨7, 2⟩⟩ = 0 :=
  ⟨(spec_c10_sort_total (strOf "size") _).1,
   ((spec_c10_sort_total (strOf "size") []).2.1 _ rfl).1,
   ((spec_c10_sort_total (strOf "size") []).2.1 _ rfl).2,
   (spec_c10_sort_total (strOf "size") []).2.2 _ (by decide)⟩

/-! Version-status probe: get_git_status. -/

/-- Python str.strip: whitespace removed from both ends. -/
def trimL (s : Str) : Str :=
  ((s.dropWhile Char.isWhitespace).reverse.dropWhile Char.isWhitespace).reverse

/-- Python str.split with a separator, greedy left-to-right scan; the fuel
argument bounds the recursion and is set to the length of the input. -/
def splitFuel (sep : Str) : Nat → Str → List Str
  | _, [] => [[]]
  | 0, l => [l]
  | fuel + 1, c :: rest =>
    if sep.isPrefixOf (c :: rest) && !sep.isEmpty then
      [] :: splitFuel sep fuel ((c :: rest).drop sep.length)
    else
      match splitFuel sep fuel rest with
      | [] => [[c]]
      | h :: t => (c :: h) :: t

/-- Python str.split with a separator. -/
def splitSeq (sep l : Str) : List Str := splitFuel sep l.length l

/-- pathlib PurePath.parts for the repo-relative paths of porcelain output:
slash-separated components with empty and single-dot components removed. -/
def pathParts (s : Str) : List Str :=
  (splitSeq (strOf "/") s).filter (fun c => !(c == []) && !(c == strOf "."))

/-- Python strip applied to the two-character status column. -/
def strip2 (x y : Char) : Str :=
  if x.isWhitespace then (if y.isWhitespace then [] else [y])
  else if y.isWhitespace then [x]
  else [x, y]

/-- The if-chain of get_git_status choosing one code for a status column. -/
def lineCode (x y : Char) : Str :=
  if strip2 x y = strOf "??" then strOf "?"
  else if x = 'A' ∨ y = 'A' then strOf "A"
  else if x = 'M' ∨ y = 'M' then strOf "M"
  else if x = 'D' ∨ y = 'D' then strOf "D"
  else if x = 'R' ∨ y = 'R' then strOf "R"
  else strOf "~"

/-- Rename folding of get_git_status: a path containing an arrow is replaced by
the text after the last arrow. -/
def foldRename (fp : Str) : Str :=
  if containsSeq fp (strOf " -> ") then (splitSeq (strOf " -> ") fp).getLastD fp else fp

/-- Reduction of a nested path to its first segment, the whole path when there
are no segments. -/
def firstSegment (fp : Str) : Str :=
  match pathParts fp with
  | [] => fp
  | a :: _ => a

/-- One porcelain line parsed to (top-level name, status code); lines shorter
than four characters are skipped. -/
def parseGitLine (line : Str) : Option (Str × Str) :=
  if line.length < 4 then none
  else
    some (firstSegment (foldRename (trimL (line.drop 3))),
      lineCode (line.getD 0 ' ') (line.getD 1 ' '))

/-- Python dict assignment on an insertion-ordered association list. -/
def mapSet (m : List (Str × Str)) (k v : Str) : List (Str × Str) :=
  if m.any (fun kv => kv.1 == k) then
    m.map (fun kv => if kv.1 == k then (k, v) else kv)
  else m ++ [(k, v)]

/-- The line loop of get_git_status. -/
def gitStatusLines (lines : List Str) : List (Str × Str) :=
  lines.foldl
    (fun m line =>
      match parseGitLine line with
      | none => m
      | some kv => mapSet m kv.1 kv.2) []

/-- Outcome of the git subprocess: fail covers a missing tool, a spawn error
and the 2 second timeout; exit carries the exit code and the stdout lines. -/
inductive GitResult
  | fail
  | exit (code : Int) (lines : List Str)

/-- get_git_status from main.py over the modelled subprocess outcome. -/
def get_git_status (res : GitResult) : List (Str × Str) :=
  match res with
  | GitResult.fail => []
  | GitResult.exit code lines => if code ≠ 0 then [] else gitStatusLines lines

/-- The precedence list of the specification: untracked first, then added,
modified, deleted, renamed. -/
def specChecks : List ((Char → Char → Bool) × Str) :=
  [(fun x y => x == '?' && y == '?', strOf "?"),
   (fun x y => x == 'A' || y == 'A', strOf "A"),
   (fun x y => x == 'M' || y == 'M', strOf "M"),
   (fun x y => x == 'D' || y == 'D', strOf "D"),
   (fun x y => x == 'R' || y == 'R', strOf "R")]

/-- Specification-side code choice: the first matching test of the precedence
list wins, with the generic changed marker as fallback. -/
def specCode (x y : Char) : Str :=
  match specChecks.find? (fun pc => pc.1 x y) with
  | some pc => pc.2
  | none => strOf "~"

theorem strip2_qq (x y : Char) : strip2 x y = strOf "??" ↔ (x = '?' ∧ y = '?') := by
  have hq : ('?' : Char).isWhitespace = false := by decide
  have hqq : strOf "??" = ['?', '?'] := rfl
  unfold strip2
  rw [hqq]
  by_cases hx : x.isWhitespace <;> by_cases hy : y.isWhitespace <;> simp [hx, hy]
  · intro h1 h2
    rw [h1] at hx
    rw [hx] at hq
    exact absurd hq (by decide)
  · intro h1 h2
    rw [h1] at hx
    rw [hx] at hq
    exact absurd hq (by decide)
  · intro h1 h2
    rw [h2] at hy
    rw [hy] at hq
    exact absurd hq (by decide)

/-- The code-side if-chain equals the specification-side first-match over the
precedence list. -/
theorem lineCode_eq_specCode (x y : Char) : lineCode x y = specCode x y := by
  unfold lineCode specCode specChecks
  by_cases hq : strip2 x y = strOf "??"
  · have hxy := (strip2_qq x y).mp hq
    rw [if_pos hq]
    simp [List.find?, hxy.1, hxy.2]
  · rw [if_neg hq]
    have hnq : ¬(x = '?' ∧ y = '?') := fun h => hq ((strip2_qq x y).mpr h)
    have hb : (x == '?' && y == '?') = false := by
      rcases Decidable.em (x = '?') with h1 | h1
      · rcases Decidable.em (y = '?') with h2 | h2
        · exact absurd ⟨h1, h2⟩ hnq
        · simp [h2]
      · simp [h1]
    by_cases hA : x = 'A' ∨ y = 'A'
    · rw [if_pos hA]
      have : (x == 'A' || y == 'A') = true := by
        rcases hA with h | h <;> simp [h]
      simp [List.find?, hb, this]
    · rw [if_neg hA]
      have hAb : (x == 'A' || y == 'A') = false := by
        push_neg at hA
        simp [hA.1, hA.2]
      by_cases hM : x = 'M' ∨ y = 'M'
      · rw [if_pos hM]
        have : (x == 'M' || y == 'M') = true := by
          rcases hM with h | h <;> simp [h]
        simp [List.find?, hb, hAb, this]
      · rw [if_neg hM]
        have hMb : (x == 'M' || y == 'M') = false := by
          push_neg at hM
          simp [hM.1, hM.2]
        by_cases hD : x = 'D' ∨ y = 'D'
        · rw [if_pos hD]
          have : (x == 'D' || y == 'D') = true := by
            rcases hD with h | h <;> simp [h]
          simp [List.find?, hb, hAb, hMb, this]
        · rw [if_neg hD]
          have hDb : (x == 'D' || y == 'D') = false := by
            push_neg at hD
            simp [hD.1, hD.2]
          by_cases hR : x = 'R' ∨ y = 'R'
          · rw [if_pos hR]
            have : (x == 'R' || y == 'R') = true := by
              rcases hR with h | h <;> simp [h]
            simp [List.find?, hb, hAb, hMb, hDb, this]
          · rw [if_neg hR]
            have hRb : (x == 'R' || y == 'R') = false := by
              push_neg at hR
              simp [hR.1, hR.2]
            simp [List.find?, hb, hAb, hMb, hDb, hRb]

/-- C5: every porcelain line is assigned the single code chosen by the
precedence untracked, added, modified, deleted, renamed, else the generic
changed marker; the key is the first path segment of the rename-folded path.
The third conjunct shows a concrete rename line folded to the new name and
reduced to its top-level segment. -/
theorem spec_c5_git_precedence :
    (∀ x y : Char, lineCode x y = specCode x y) ∧
    (∀ line : Str, 4 ≤ line.length →
      parseGitLine line =
        some (firstSegment (foldRename (trimL (line.drop 3))),
          lineCode (line.getD 0 ' ') (line.getD 1 ' '))) ∧
    parseGitLine (strOf "R  old.txt -> sub/new.txt") = some (strOf "sub", strOf "R") := by
  refine ⟨lineCode_eq_specCode, ?_, by decide⟩
  intro line hlen
  unfold parseGitLine
  rw [if_neg (by omega)]

/-- Concrete instantiation of the C5 theorem on an untracked nested path. -/
theorem spec_c5_git_precedence_witness :
    parseGitLine (strOf "?? dir/file.txt") = some (strOf "dir", strOf "?") := by
  have h := spec_c5_git_precedence.2.1 (strOf "?? dir/file.txt") (by decide)
  rw [h]
  decide

/-- C9: the version-status probe returns the empty mapping on every error
outcome (tool missing, spawn failure, timeout, or a non-zero exit as for a
non-repository) instead of raising. -/
theorem spec_c9_probe_never_fails (res : GitResult) :
    (res = GitResult.fail ∨ ∃ c lines, res = GitResult.exit c lines ∧ c ≠ 0) →
    get_git_status res = [] := by
  intro h
  rcases h with h | ⟨c, lines, h, hc⟩
  · rw [h]
    rfl
  · rw [h]
    simp [get_git_status, hc]

/-- Concrete instantiation of the C9 theorem: a git exit code 128, as for a
directory that is not a repository, yields the empty mapping. -/
theorem spec_c9_probe_never_fails_witness :
    get_git_status (GitResult.exit 128 [strOf "fatal: not a git repository"]) = [] :=
  spec_c9_probe_never_fails _ (Or.inr ⟨128, _, rfl, by decide⟩)

/-! Filesystem model, undo stack, and the mutating actions. -/

/-- Absolute filesystem paths as lists of components. -/
abbrev FPath := List Str

/-- Python Path.name: the last component. -/
def pname (p : FPath) : Str := p.getLastD []

/-- Byte contents of a regular file. -/
abbrev Bytes := List Nat

/-- Contents of one file.  Archive containers are modelled abstractly by the
entries they store; a gzip stream is modelled by the bytes it was compressed
from, so that library decompression is the identity on the payload. -/
inductive FileData
  | plain (bs : Bytes)
  | zipC (entries : List (FPath × Bytes))
  | tarC (entries : List (FPath × Bytes))
  | gzC (orig : Bytes)
deriving DecidableEq

/-- The filesystem: a finite map from file paths to contents; directories are
implicit as proper prefixes of file paths. -/
abbrev Fs := List (FPath × FileData)

/-- A path exists when some file lies at it or under it. -/
def subtreeExists (fs : Fs) (p : FPath) : Bool :=
  fs.any (fun e => p.isPrefixOf e.1)

/-- Relocation of one path under a move of src to dst. -/
def movePath (src dst p : FPath) : FPath :=
  if src.isPrefixOf p then dst ++ p.drop src.length else p

/-- shutil.move of a file or a directory tree, on the success path. -/
def fsMove (src dst : FPath) (fs : Fs) : Fs :=
  fs.map (fun e => (movePath src dst e.1, e.2))

/-- Recursive removal: unlink for a file, rmtree for a directory. -/
def fsRemove (p : FPath) (fs : Fs) : Fs :=
  fs.filter (fun e => !(p.isPrefixOf e.1))

/-- Recursive duplication: copy2 for a file, copytree for a directory. -/
def fsCopy (src dst : FPath) (fs : Fs) : Fs :=
  fs ++ fs.filterMap
    (fun e => if src.isPrefixOf e.1 then some (dst ++ e.1.drop src.length, e.2) else none)

/-- The inverse closures pushed on the undo stack, as tagged data: move the
pasted entry back, delete a created path, or move a batch back out of trash. -/
inductive UndoAction
  | moveBack (d o : FPath)
  | deletePath (p : FPath)
  | restoreMoves (moves : List (FPath × FPath))
  | renameBack (t o : FPath)
deriving DecidableEq

/-- One undo entry: description plus inverse action. -/
abbrev UndoEnt := Str × UndoAction

/-- UndoStack.push: append at the end of the backing list. -/
def pushU (st : List UndoEnt) (e : UndoEnt) : List UndoEnt := st ++ [e]

/-- UndoStack.pop: remove and return the last element, none when empty. -/
def popU (st : List UndoEnt) : Option (UndoEnt × List UndoEnt) :=
  match st.getLast? with
  | none => none
  | some e => some (e, st.dropLast)

/-- UndoStack.peek: the description of the last element. -/
def peekU (st : List UndoEnt) : Option Str :=
  match st.getLast? with
  | none => none
  | some e => some e.1

/-- Run the moves recorded by a delete, stopping at the first missing source;
the Bool reports success, and on failure the moves already done are kept. -/
def runMoves (fs : Fs) : List (FPath × FPath) → Fs × Bool
  | [] => (fs, true)
  | (tp, o) :: rest =>
    if subtreeExists fs tp then runMoves (fsMove tp o fs) rest else (fs, false)

/-- Execution of an inverse action on the filesystem.  A move of a missing
source raises, which the model reports as a false flag; removal with
missing_ok never raises. -/
def runUndo (a : UndoAction) (fs : Fs) : Fs × Bool :=
  match a with
  | UndoAction.moveBack d o =>
    if subtreeExists fs d then (fsMove d o fs, true) else (fs, false)
  | UndoAction.deletePath p => (fsRemove p fs, true)
  | UndoAction.restoreMoves moves => runMoves fs moves
  | UndoAction.renameBack t o =>
    if subtreeExists fs t then (fsMove t o fs, true) else (fs, false)

/-- The application state mutated by the actions: current directory, clipboard,
selection, undo stack, filesystem, and the last status message. -/
structure St where
  currentDir : FPath
  fs : Fs
  undo : List UndoEnt
  clipboard : Option FPath
  clipboardOp : Str
  selected : List FPath
  status : Str
deriving DecidableEq

/-- action_undo from main.py: pop the stack first, then run the inverse; a
failed inverse leaves the entry popped and reports the failure. -/
def action_undo (s : St) : St :=
  match popU s.undo with
  | none => { s with status := strOf "Nothing to undo." }
  | some (ent, rest) =>
    match runUndo ent.2 s.fs with
    | (fs2, true) => { s with undo := rest, fs := fs2, status := strOf "Undone: " ++ ent.1 }
    | (fs2, false) => { s with undo := rest, fs := fs2, status := strOf "Undo failed." }

theorem popU_push (st : List UndoEnt) (e : UndoEnt) : popU (pushU st e) = some (e, st) := by
  unfold popU pushU
  rw [List.getLast?_concat, List.dropLast_concat]

/-- C6: the undo stack is LIFO.  After pushing A then B onto the empty stack,
the first undo runs the inverse of B, the second runs the inverse of A, and
the third reports that there is nothing to undo while changing nothing else. -/
theorem spec_c6_undo_lifo (cur : FPath) (fs fsB fsAB : Fs) (clip : Option FPath)
    (op : Str) (sel : List FPath) (msg : Str) (A B : UndoEnt)
    (hB : runUndo B.2 fs = (fsB, true)) (hA : runUndo A.2 fsB = (fsAB, true)) :
    action_undo ⟨cur, fs, pushU (pushU [] A) B, clip, op, sel, msg⟩ =
      ⟨cur, fsB, [A], clip, op, sel, strOf "Undone: " ++ B.1⟩ ∧
    action_undo ⟨cur, fsB, [A], clip, op, sel, strOf "Undone: " ++ B.1⟩ =
      ⟨cur, fsAB, [], clip, op, sel, strOf "Undone: " ++ A.1⟩ ∧
    action_undo ⟨cur, fsAB, [], clip, op, sel, strOf "Undone: " ++ A.1⟩ =
      ⟨cur, fsAB, [], clip, op, sel, strOf "Nothing to undo."⟩ := by
  refine ⟨?_, ?_, ?_⟩
  · unfold action_undo
    rw [show popU (pushU (pushU [] A) B) = some (B, pushU [] A) from popU_push _ _]
    simp only [hB]
    rfl
  · unfold action_undo
    rw [show ([A] : List UndoEnt) = pushU [] A from rfl,
      show popU (pushU [] A) = some (A, []) from popU_push _ _]
    simp only [hA]
  · rfl

/-- Concrete instantiation of the C6 theorem: two recorded file creations are
undone newest first, and a third undo reports nothing to undo. -/
theorem spec_c6_undo_lifo_witness :
    action_undo
      ⟨[strOf "d"],
       [([strOf "d", strOf "a"], FileData.plain [1]), ([strOf "d", strOf "b"], FileData.plain [2])],
       pushU (pushU [] (strOf "create a", UndoAction.deletePath [strOf "d", strOf "a"]))
         (strOf "create b", UndoAction.deletePath [strOf "d", strOf "b"]),
       none, strOf "copy", [], []⟩ =
      ⟨[strOf "d"], [([strOf "d", strOf "a"], FileData.plain [1])],
       [(strOf "create a", UndoAction.deletePath [strOf "d", strOf "a"])],
       none, strOf "copy", [], strOf "Undone: " ++ strOf "create b"⟩ :=
  (spec_c6_undo_lifo [strOf "d"] _ _ [] none (strOf "copy") [] []
    (strOf "create a", UndoAction.deletePath [strOf "d", strOf "a"])
    (strOf "create b", UndoAction.deletePath [strOf "d", strOf "b"])
    (by decide) (by decide)).1

/-- C7: undo pops the entry before running the inverse; when the inverse
raises, the entry is neither retried nor re-pushed, the failure is reported,
and the stack is exactly one entry shorter. -/
theorem spec_c7_undo_pop_first (s : St) (ent : UndoEnt) (rest : List UndoEnt)
    (hpop : popU s.undo = some (ent, rest)) (fs2 : Fs)
    (hfail : runUndo ent.2 s.fs = (fs2, false)) :
    action_undo s = { s with undo := rest, fs := fs2, status := strOf "Undo failed." } ∧
    rest.length + 1 = s.undo.length := by
  constructor
  · unfold action_undo
    rw [hpop]
    simp only [hfail]
  · have : s.undo ≠ [] := by
      intro h
      rw [h] at hpop
      exact Option.noConfusion hpop
    have hrest : rest = s.undo.dropLast := by
      unfold popU at hpop
      cases hg : s.undo.getLast? with
      | none => rw [hg] at hpop; exact Option.noConfusion hpop
      | some e =>
        rw [hg] at hpop
        injection hpop with h1
        injection h1 with _ h2
        exact h2.symm
    rw [hrest, List.length_dropLast]
    have hl : 0 < s.undo.length := List.length_pos.mpr this
    omega

/-- Concrete instantiation of the C7 theorem: undoing a recorded move whose
source has vanished reports a failure and pops the entry without re-pushing. -/
theorem spec_c7_undo_pop_first_witness :
    action_undo
      ⟨[strOf "d"], [], [(strOf "move a", UndoAction.moveBack [strOf "d", strOf "a"] [strOf "e", strOf "a"])],
       none, strOf "copy", [], []⟩ =
      ⟨[strOf "d"], [], [], none, strOf "copy", [], strOf "Undo failed."⟩ ∧
    (0 : Nat) + 1 = 1 :=
  spec_c7_undo_pop_first
    ⟨[strOf "d"], [], [(strOf "move a", UndoAction.moveBack [strOf "d", strOf "a"] [strOf "e", strOf "a"])],
     none, strOf "copy", [], []⟩
    (strOf "move a", UndoAction.moveBack [strOf "d", strOf "a"] [strOf "e", strOf "a"]) []
    (by decide) [] (by decide)

/-- action_paste_item from main.py.  The move and copy primitives are modelled
on their success path guarded by the existence of the source; a vanished
source raises in Python and leaves the state unchanged apart from the error
status. -/
def action_paste_item (s : St) : St :=
  match s.clipboard with
  | none => { s with status := strOf "Clipboard is empty." }
  | some src =>
    let dst := s.currentDir ++ [pname src]
    if dst = src then { s with status := strOf "Source and destination are the same." }
    else if s.clipboardOp = strOf "cut" then
      if subtreeExists s.fs src then
        { s with fs := fsMove src dst s.fs,
                 clipboard := none,
                 undo := pushU s.undo (strOf "move " ++ pname src, UndoAction.moveBack dst src),
                 status := strOf "Moved." }
      else { s with status := strOf "Error." }
    else
      if subtreeExists s.fs src then
        { s with fs := fsCopy src dst s.fs,
                 undo := pushU s.undo (strOf "copy " ++ pname src, UndoAction.deletePath dst),
                 status := strOf "Copied." }
      else { s with status := strOf "Error." }

theorem prefixOfIff {α : Type} [BEq α] [LawfulBEq α] {l₁ l₂ : List α} :
    l₁.isPrefixOf l₂ = true ↔ l₁ <+: l₂ :=
  List.isPrefixOf_iff_prefix

theorem movePath_roundtrip (src dst p : FPath) (hp : ¬ dst <+: p) :
    movePath dst src (movePath src dst p) = p := by
  unfold movePath
  by_cases hsp : src.isPrefixOf p = true
  · rw [if_pos hsp]
    have hpre : src <+: p := prefixOfIff.mp hsp
    obtain ⟨t, ht⟩ := hpre
    have hdrop : p.drop src.length = t := by
      rw [← ht, List.drop_left]
    rw [hdrop]
    rw [if_pos (prefixOfIff.mpr (List.prefix_append dst t))]
    rw [List.drop_left, ht]
  · rw [if_neg hsp]
    rw [if_neg (fun h => hp (prefixOfIff.mp h))]

theorem fsMove_roundtrip (src dst : FPath) (fs : Fs)
    (h : ∀ e ∈ fs, ¬ dst <+: e.1) :
    fsMove dst src (fsMove src dst fs) = fs := by
  unfold fsMove
  rw [List.map_map]
  have : ∀ e ∈ fs,
      ((fun e : FPath × FileData => (movePath dst src e.1, e.2)) ∘
        (fun e : FPath × FileData => (movePath src dst e.1, e.2))) e = id e := by
    intro e he
    simp only [Function.comp_apply, id_eq]
    rw [movePath_roundtrip src dst e.1 (h e he)]
  rw [List.map_congr_left this, List.map_id]

theorem subtreeExists_fsMove (src dst : FPath) (fs : Fs)
    (h : subtreeExists fs src = true) :
    subtreeExists (fsMove src dst fs) dst = true := by
  unfold subtreeExists at h ⊢
  obtain ⟨e, he, hpre⟩ := List.any_eq_true.mp h
  refine List.any_eq_true.mpr ⟨(movePath src dst e.1, e.2), List.mem_map_of_mem _ he, ?_⟩
  unfold movePath
  rw [if_pos hpre]
  exact prefixOfIff.mpr (List.prefix_append dst _)

/-- C3: pasting a cut source onto itself is a no-op that only reports the
error and keeps the clipboard; pasting into a different directory moves the
source, clears the clipboard and records an inverse that a subsequent undo
uses to move the entry back to the cut source; a copy paste keeps the
clipboard for repeated pastes. -/
theorem spec_c3_paste_same_location (s : St) (src : FPath)
    (hclip : s.clipboard = some src) :
    (s.currentDir ++ [pname src] = src →
      action_paste_item s = { s with status := strOf "Source and destination are the same." }) ∧
    (s.currentDir ++ [pname src] ≠ src → s.clipboardOp = strOf "cut" →
      subtreeExists s.fs src = true →
      (∀ e ∈ s.fs, ¬ (s.currentDir ++ [pname src]) <+: e.1) →
      (action_paste_item s).clipboard = none ∧
      (action_paste_item s).fs = fsMove src (s.currentDir ++ [pname src]) s.fs ∧
      (action_paste_item s).undo = pushU s.undo
        (strOf "move " ++ pname src, UndoAction.moveBack (s.currentDir ++ [pname src]) src) ∧
      (action_undo (action_paste_item s)).fs = s.fs ∧
      (action_undo (action_paste_item s)).undo = s.undo) ∧
    (s.currentDir ++ [pname src] ≠ src → ¬ s.clipboardOp = strOf "cut" →
      subtreeExists s.fs src = true →
      (action_paste_item s).clipboard = some src ∧
      (action_paste_item s).undo = pushU s.undo
        (strOf "copy " ++ pname src, UndoAction.deletePath (s.currentDir ++ [pname src]))) := by
  refine ⟨?_, ?_, ?_⟩
  · intro heq
    unfold action_paste_item
    rw [hclip]
    dsimp only
    rw [if_pos heq]
  · intro hne hop hex hvac
    have hstep : action_paste_item s =
        { s with fs := fsMove src (s.currentDir ++ [pname src]) s.fs,
                 clipboard := none,
                 undo := pushU s.undo (strOf "move " ++ pname src,
                   UndoAction.moveBack (s.currentDir ++ [pname src]) src),
                 status := strOf "Moved." } := by
      unfold action_paste_item
      rw [hclip]
      dsimp only
      rw [if_neg hne, if_pos hop, if_pos hex]
    refine ⟨by rw [hstep], by rw [hstep], by rw [hstep], ?_, ?_⟩
    · rw [hstep]
      unfold action_undo
      rw [popU_push]
      simp only [runUndo]
      rw [if_pos (subtreeExists_fsMove src (s.currentDir ++ [pname src]) s.fs hex)]
      simp only
      exact fsMove_roundtrip src (s.currentDir ++ [pname src]) s.fs hvac
    · rw [hstep]
      unfold action_undo
      rw [popU_push]
      simp only [runUndo]
      rw [if_pos (subtreeExists_fsMove src (s.currentDir ++ [pname src]) s.fs hex)]
  · intro hne hop hex
    have hstep : action_paste_item s =
        { s with fs := fsCopy src (s.currentDir ++ [pname src]) s.fs,
                 undo := pushU s.undo (strOf "copy " ++ pname src,
                   UndoAction.deletePath (s.currentDir ++ [pname src])),
                 status := strOf "Copied." } := by
      unfold action_paste_item
      rw [hclip]
      dsimp only
      rw [if_neg hne, if_neg hop, if_pos hex]
    exact ⟨by rw [hstep, hclip], by rw [hstep]⟩

/-- Concrete instantiation of the C3 theorem: a file cut from directory d and
pasted into directory e is moved, the clipboard is cleared, and the recorded
undo restores the original filesystem. -/
theorem spec_c3_paste_same_location_witness :
    (action_paste_item
      ⟨[strOf "e"], [([strOf "d", strOf "a"], FileData.plain [7])], [],
        some [strOf "d", strOf "a"], strOf "cut", [], []⟩).clipboard = none ∧
    (action_undo (action_paste_item
      ⟨[strOf "e"], [([strOf "d", strOf "a"], FileData.plain [7])], [],
        some [strOf "d", strOf "a"], strOf "cut", [], []⟩)).fs =
      [([strOf "d", strOf "a"], FileData.plain [7])] := by
  have h := (spec_c3_paste_same_location
    ⟨[strOf "e"], [([strOf "d", strOf "a"], FileData.plain [7])], [],
      some [strOf "d", strOf "a"], strOf "cut", [], []⟩
    [strOf "d", strOf "a"] rfl).2.1 (by decide) rfl (by decide) (by decide)
  exact ⟨h.1, h.2.2.2.1⟩

/-! Soft delete: action_delete. -/

/-- The trash root, a fixed directory under the user home. -/
def TRASH_DIR : FPath := [strOf "home", strOf ".shellman_trash"]

/-- Decimal digits of a number, for the item-count label. -/
def natStr (n : Nat) : Str := (toString n).data

/-- The delete confirmation label: a single name or an item count. -/
def deleteLabel (targets : List FPath) : Str :=
  match targets with
  | [t] => pname t
  | _ => natStr targets.length ++ strOf " items"

/-- The loop of action_delete: move each target into the trash under a
timestamped name, stopping at the first entry whose move raises (modelled by
a vanished source); returns the filesystem reached, the recorded moves, and
the failing entry if any.  The index feeds the per-iteration timestamp. -/
def deleteLoop (tsf : Nat → Str) : Nat → Fs → List (FPath × FPath) → List FPath →
    Fs × List (FPath × FPath) × Option FPath
  | _, fs, acc, [] => (fs, acc, none)
  | i, fs, acc, e :: rest =>
    if subtreeExists fs e then
      deleteLoop tsf (i + 1) (fsMove e (TRASH_DIR ++ [tsf i ++ strOf "_" ++ pname e]) fs)
        (acc ++ [(TRASH_DIR ++ [tsf i ++ strOf "_" ++ pname e], e)]) rest
    else (fs, acc, some e)

/-- action_delete from main.py on the confirmed path: run the loop; on failure
report the failing entry and push nothing; on success clear the selection and
push a single undo entry restoring every move. -/
def action_delete (tsf : Nat → Str) (targets : List FPath) (s : St) : St :=
  match deleteLoop tsf 0 s.fs [] targets with
  | (fs2, _, some bad) =>
    { s with fs := fs2, status := strOf "Error deleting " ++ pname bad }
  | (fs2, moves, none) =>
    { s with fs := fs2, selected := [],
             undo := pushU s.undo (strOf "delete " ++ deleteLabel targets,
               UndoAction.restoreMoves moves),
             status := strOf "Deleted: " ++ deleteLabel targets }

theorem deleteLoop_append (tsf : Nat → Str) (l1 l2 : List FPath) :
    ∀ (i : Nat) (fs : Fs) (acc : List (FPath × FPath)),
      deleteLoop tsf i fs acc (l1 ++ l2) =
        match deleteLoop tsf i fs acc l1 with
        | (fs1, acc1, none) => deleteLoop tsf (i + l1.length) fs1 acc1 l2
        | r => r := by
  induction l1 with
  | nil =>
    intro i fs acc
    simp [deleteLoop]
  | cons e rest ih =>
    intro i fs acc
    rw [List.cons_append]
    by_cases he : subtreeExists fs e = true
    · simp only [deleteLoop, if_pos he]
      rw [ih]
      have : i + 1 + rest.length = i + (rest.length + 1) := by omega
      rw [this]
      rfl
    · simp only [deleteLoop, if_neg he]

/-- C4: soft delete of a batch is atomic per entry but not transactional.  If
every entry before bad moves to trash and the move of bad fails, the action
stops there: the entries already moved stay in trash (the filesystem is the
one reached by the loop over the prefix), the failing entry is named in the
report, entries after bad are never moved, and no undo entry is pushed.  An
undo entry is pushed exactly when the whole batch succeeds. -/
theorem spec_c4_delete_first_failure (tsf : Nat → Str) (s : St) (pre post : List FPath)
    (bad : FPath) (fs1 : Fs) (acc1 : List (FPath × FPath))
    (hpre : deleteLoop tsf 0 s.fs [] pre = (fs1, acc1, none))
    (hbad : subtreeExists fs1 bad = false) :
    action_delete tsf (pre ++ bad :: post) s =
      { s with fs := fs1, status := strOf "Error deleting " ++ pname bad } ∧
    (action_delete tsf (pre ++ bad :: post) s).undo = s.undo ∧
    (∀ (targets : List FPath) (fs2 : Fs) (moves : List (FPath × FPath)),
      deleteLoop tsf 0 s.fs [] targets = (fs2, moves, none) →
      action_delete tsf targets s =
        { s with fs := fs2, selected := [],
                 undo := pushU s.undo (strOf "delete " ++ deleteLabel targets,
                   UndoAction.restoreMoves moves),
                 status := strOf "Deleted: " ++ deleteLabel targets }) := by
  have hloop : deleteLoop tsf 0 s.fs [] (pre ++ bad :: post) = (fs1, acc1, some bad) := by
    rw [deleteLoop_append tsf pre (bad :: post) 0 s.fs [], hpre]
    simp only [deleteLoop, if_neg (by simp [hbad] : ¬ subtreeExists fs1 bad = true)]
  have hmain : action_delete tsf (pre ++ bad :: post) s =
      { s with fs := fs1, status := strOf "Error deleting " ++ pname bad } := by
    unfold action_delete
    rw [hloop]
  refine ⟨hmain, by rw [hmain], ?_⟩
  intro targets fs2 moves hok
  unfold action_delete
  rw [hok]

/-- Concrete instantiation of the C4 theorem: deleting the batch a, b, c where
b has vanished moves only a to trash, reports b, and pushes no undo entry. -/
theorem spec_c4_delete_first_failure_witness :
    action_delete (fun i => natStr i)
        [[strOf "d", strOf "a"], [strOf "d", strOf "b"], [strOf "d", strOf "c"]]
        ⟨[strOf "d"],
         [([strOf "d", strOf "a"], FileData.plain [1]), ([strOf "d", strOf "c"], FileData.plain [3])],
         [], none, strOf "copy", [[strOf "d", strOf "a"]], []⟩ =
      ⟨[strOf "d"],
       [([strOf "home", strOf ".shellman_trash", strOf "0_a"], FileData.plain [1]),
        ([strOf "d", strOf "c"], FileData.plain [3])],
       [], none, strOf "copy", [[strOf "d", strOf "a"]],
       strOf "Error deleting " ++ strOf "b"⟩ := by
  have h := (spec_c4_delete_first_failure (fun i => natStr i)
    ⟨[strOf "d"],
     [([strOf "d", strOf "a"], FileData.plain [1]), ([strOf "d", strOf "c"], FileData.plain [3])],
     [], none, strOf "copy", [[strOf "d", strOf "a"]], []⟩
    [[strOf "d", strOf "a"]] [[strOf "d", strOf "c"]] [strOf "d", strOf "b"]
    [([strOf "home", strOf ".shellman_trash", strOf "0_a"], FileData.plain [1]),
     ([strOf "d", strOf "c"], FileData.plain [3])]
    [([strOf "home", strOf ".shellman_trash", strOf "0_a"], [strOf "d", strOf "a"])]
    (by decide) (by decide)).1
  exact h.trans (by decide)

/-! Archive engine: dispatch, zip-name normalisation, extraction. -/

/-- The method _effective_targets: the selected paths when any, else the
cursor entry alone. -/
def effectiveTargets (sel : List FPath) (cursor : Option FPath) : List FPath :=
  if !sel.isEmpty then sel
  else
    match cursor with
    | some e => [e]
    | none => []

/-- Where action_archive routes a request. -/
inductive ArchiveRoute
  | extractR (p : FPath)
  | zipR (targets : List FPath)
  | errorR
deriving DecidableEq

/-- The dispatch of action_archive: extract when the cursor entry is a
recognised archive and nothing is selected, otherwise zip the effective
targets, with an error report when there are none. -/
def action_archive_route (cursor : Option FPath) (sel : List FPath) : ArchiveRoute :=
  let targets := effectiveTargets sel cursor
  match cursor with
  | some e =>
    if isArchive (pname e) && sel.isEmpty then ArchiveRoute.extractR e
    else if targets.isEmpty then ArchiveRoute.errorR
    else ArchiveRoute.zipR targets
  | none =>
    if targets.isEmpty then ArchiveRoute.errorR else ArchiveRoute.zipR targets

/-- Normalisation of the typed archive name in action_archive. -/
def normalizeZipName (r : Str) : Str :=
  if endsWithS r (strOf ".zip") then r else r ++ strOf ".zip"

/-- C8: when exactly one entry is targeted, the selection set is empty, and the
entry carries a recognised archive suffix, the archive action extracts it; in
every other case with a nonempty target list it zips the targets; and the
output name of a zip is normalised to carry the zip suffix, unchanged when
already present. -/
theorem spec_c8_archive_dispatch :
    (∀ (cursor : Option FPath) (sel : List FPath) (e : FPath),
      effectiveTargets sel cursor = [e] → sel = [] → isArchive (pname e) = true →
      action_archive_route cursor sel = ArchiveRoute.extractR e) ∧
    (∀ (cursor : Option FPath) (sel : List FPath),
      (¬ ∃ e, cursor = some e ∧ sel = [] ∧ isArchive (pname e) = true) →
      effectiveTargets sel cursor ≠ [] →
      action_archive_route cursor sel = ArchiveRoute.zipR (effectiveTargets sel cursor)) ∧
    (∀ r : Str, endsWithS (normalizeZipName r) (strOf ".zip") = true ∧
      (endsWithS r (strOf ".zip") = true → normalizeZipName r = r)) := by
  refine ⟨?_, ?_, ?_⟩
  · intro cursor sel e htgt hsel harch
    subst hsel
    cases cursor with
    | none => simp [effectiveTargets] at htgt
    | some c =>
      have hce : c = e := by
        simp [effectiveTargets] at htgt
        exact htgt
      subst hce
      unfold action_archive_route
      simp [harch]
  · intro cursor sel hno hne
    cases cursor with
    | none =>
      unfold action_archive_route
      dsimp only
      rw [if_neg (by simpa using hne)]
    | some c =>
      have hfalse : (isArchive (pname c) && sel.isEmpty) = false := by
        rcases hs : sel.isEmpty with hv | hv
        · simp
        · have hsel : sel = [] := List.isEmpty_iff.mp hs
          have : ¬ isArchive (pname c) = true := fun hA => hno ⟨c, rfl, hsel, hA⟩
          simp [this]
      unfold action_archive_route
      dsimp only
      rw [hfalse]
      simp only [Bool.false_eq_true, if_false]
      rw [if_neg (by simpa using hne)]
  · intro r
    constructor
    · unfold normalizeZipName
      split
      · assumption
      · unfold endsWithS
        exact List.isSuffixOf_iff_suffix.mpr (List.suffix_append r (strOf ".zip"))
    · intro h
      unfold normalizeZipName
      rw [if_pos h]

/-- Concrete instantiation of the C8 theorem: a lone cursor entry named
notes.tar.gz with an empty selection routes to extraction, and two selected
entries route to zipping even when one is an archive. -/
theorem spec_c8_archive_dispatch_witness :
    action_archive_route (some [strOf "d", strOf "notes.tar.gz"]) [] =
      ArchiveRoute.extractR [strOf "d", strOf "notes.tar.gz"] ∧
    action_archive_route (some [strOf "d", strOf "notes.tar.gz"])
        [[strOf "d", strOf "notes.tar.gz"], [strOf "d", strOf "x.txt"]] =
      ArchiveRoute.zipR [[strOf "d", strOf "notes.tar.gz"], [strOf "d", strOf "x.txt"]] ∧
    normalizeZipName (strOf "out") = strOf "out.zip" :=
  ⟨spec_c8_archive_dispatch.1 (some [strOf "d", strOf "notes.tar.gz"]) []
      [strOf "d", strOf "notes.tar.gz"] (by decide) rfl (by decide),
   (spec_c8_archive_dispatch.2.1 (some [strOf "d", strOf "notes.tar.gz"])
      [[strOf "d", strOf "notes.tar.gz"], [strOf "d", strOf "x.txt"]]
      (by intro h; exact absurd h.choose_spec.2.1 (by decide)) (by decide)).trans (by decide),
   by decide⟩

/-- Lookup of the file stored at a path. -/
def lookupFs (fs : Fs) (p : FPath) : Option FileData :=
  (fs.find? (fun e => e.1 == p)).map (fun e => e.2)

/-- The method _extract_archive: dispatch on the lower-cased name suffix, with
destination current_dir / stem; zip and tar containers are unpacked below the
destination directory, a bare gzip stream is decompressed to the destination
file, and an unrecognised suffix is reported without touching the filesystem.
A container whose stored data does not match its suffix raises in Python and
is reported as an extraction error. -/
def action_extract (s : St) (p : FPath) : St :=
  let nm := lowerS (pname p)
  let dest := s.currentDir ++ [stemS (pname p)]
  if endsWithS nm (strOf ".zip") then
    match lookupFs s.fs p with
    | some (FileData.zipC entries) =>
      { s with fs := s.fs ++ entries.map (fun en => (dest ++ en.1, FileData.plain en.2)),
               undo := pushU s.undo (strOf "extract " ++ pname p, UndoAction.deletePath dest),
               status := strOf "Extracted." }
    | _ => { s with status := strOf "Extraction error." }
  else if endsWithS nm (strOf ".tar.gz") || endsWithS nm (strOf ".tgz") ||
      endsWithS nm (strOf ".tar.bz2") || endsWithS nm (strOf ".tar.xz") ||
      endsWithS nm (strOf ".tar") then
    match lookupFs s.fs p with
    | some (FileData.tarC entries) =>
      { s with fs := s.fs ++ entries.map (fun en => (dest ++ en.1, FileData.plain en.2)),
               undo := pushU s.undo (strOf "extract " ++ pname p, UndoAction.deletePath dest),
               status := strOf "Extracted." }
    | _ => { s with status := strOf "Extraction error." }
  else if endsWithS nm (strOf ".gz") then
    match lookupFs s.fs p with
    | some (FileData.gzC orig) =>
      { s with fs := s.fs ++ [(dest, FileData.plain orig)],
               undo := pushU s.undo (strOf "extract " ++ pname p, UndoAction.deletePath dest),
               status := strOf "Extracted." }
    | _ => { s with status := strOf "Extraction error." }
  else { s with status := strOf "Unsupported archive format." }

/-- C1 counterexample: extracting a file named data.tar.gz does not produce a
destination named data.  At the concrete input the destination is data.tar
(the stem strips only the final extension), so the stored entry appears under
data.tar and nothing appears under data. -/
theorem spec_c1_extract_dest_cex :
    subtreeExists
      (action_extract
        ⟨[strOf "d"],
         [([strOf "d", strOf "data.tar.gz"],
           FileData.tarC [([strOf "data", strOf "x.txt"], [1, 2])])],
         [], none, strOf "copy", [], []⟩
        [strOf "d", strOf "data.tar.gz"]).fs
      [strOf "d", strOf "data"] = false ∧
    subtreeExists
      (action_extract
        ⟨[strOf "d"],
         [([strOf "d", strOf "data.tar.gz"],
           FileData.tarC [([strOf "data", strOf "x.txt"], [1, 2])])],
         [], none, strOf "copy", [], []⟩
        [strOf "d", strOf "data.tar.gz"]).fs
      [strOf "d", strOf "data.tar"] = true ∧
    stemS (strOf "data.tar.gz") ≠ strOf "data" := by
  decide

/-- C1 amended: the destination of an extraction is the parent of the archive
joined with its stem, where the stem strips only the final extension.  A
tar-family archive unpacks its stored entries below that destination
directory, and a bare gzip stream decompresses to that destination file whose
content equals the pre-compression bytes. -/
theorem spec_c1_extract_amended (s : St) (p : FPath) (entries : List (FPath × Bytes))
    (orig : Bytes) :
    (endsWithS (lowerS (pname p)) (strOf ".zip") = false →
      endsWithS (lowerS (pname p)) (strOf ".tar.gz") = true →
      s.currentDir = p.dropLast →
      lookupFs s.fs p = some (FileData.tarC entries) →
      action_extract s p =
        { s with
          fs := s.fs ++ entries.map (fun en =>
                  (p.dropLast ++ [stemS (pname p)] ++ en.1, FileData.plain en.2)),
          undo := pushU s.undo (strOf "extract " ++ pname p,
                    UndoAction.deletePath (p.dropLast ++ [stemS (pname p)])),
          status := strOf "Extracted." }) ∧
    (endsWithS (lowerS (pname p)) (strOf ".zip") = false →
      endsWithS (lowerS (pname p)) (strOf ".tar.gz") = false →
      endsWithS (lowerS (pname p)) (strOf ".tgz") = false →
      endsWithS (lowerS (pname p)) (strOf ".tar.bz2") = false →
      endsWithS (lowerS (pname p)) (strOf ".tar.xz") = false →
      endsWithS (lowerS (pname p)) (strOf ".tar") = false →
      endsWithS (lowerS (pname p)) (strOf ".gz") = true →
      s.currentDir = p.dropLast →
      lookupFs s.fs p = some (FileData.gzC orig) →
      action_extract s p =
        { s with
          fs := s.fs ++ [(p.dropLast ++ [stemS (pname p)], FileData.plain orig)],
          undo := pushU s.undo (strOf "extract " ++ pname p,
                    UndoAction.deletePath (p.dropLast ++ [stemS (pname p)])),
          status := strOf "Extracted." }) := by
  constructor
  · intro hz ht hcur hdata
    unfold action_extract
    dsimp only
    rw [if_neg (by simp [hz]), if_pos (by simp [ht]), hdata]
    rw [hcur]
  · intro hz h1 h2 h3 h4 h5 hgz hcur hdata
    unfold action_extract
    dsimp only
    rw [if_neg (by simp [hz]), if_neg (by simp [h1, h2, h3, h4, h5]), if_pos (by simp [hgz]),
      hdata, hcur]

/-- Concrete instantiation of the amended C1 theorem: note.gz decompresses to
the sibling file note holding the pre-compression bytes. -/
theorem spec_c1_extract_amended_witness :
    action_extract
      ⟨[strOf "d"], [([strOf "d", strOf "note.gz"], FileData.gzC [10, 20])],
       [], none, strOf "copy", [], []⟩
      [strOf "d", strOf "note.gz"] =
      ⟨[strOf "d"],
       [([strOf "d", strOf "note.gz"], FileData.gzC [10, 20]),
        ([strOf "d", strOf "note"], FileData.plain [10, 20])],
       [(strOf "extract " ++ strOf "note.gz", UndoAction.deletePath [strOf "d", strOf "note"])],
       none, strOf "copy", [], strOf "Extracted."⟩ := by
  have h := (spec_c1_extract_amended
    ⟨[strOf "d"], [([strOf "d", strOf "note.gz"], FileData.gzC [10, 20])],
     [], none, strOf "copy", [], []⟩
    [strOf "d", strOf "note.gz"] [] [10, 20]).2
    (by decide) (by decide) (by decide) (by decide) (by decide) (by decide) (by decide)
    (by decide) (by decide)
  exact h.trans (by decide)

end Shellman
